import Mathlib

/-!
Verification of the open-unmix separation pipeline (`model.py`).

The development shallowly embeds the modules of `model.py`:
`STFT`, `Spectrogram`, `NoOp`, `OpenUnmix` and `Separator`.

Modelling conventions:
* Scalars are rationals (`ℚ`); torch tensors become structures carrying their
  runtime dimensions together with a total indexing function.  Indices beyond
  the recorded bounds are irrelevant to every theorem below.
* External torch primitives that the repository merely calls
  (`torch.stft`, `torchaudio.functional.istft`, the fractional power
  `Tensor.pow(power/2.0)` inside `Spectrogram`, and the learned
  Linear/BatchNorm/LSTM/tanh stack of `OpenUnmix`) are opaque function
  parameters: the embedding is faithful to how the repository composes them,
  and every theorem quantifies over their behaviour (or instantiates them
  concretely in witnesses).
* The `wiener` routine imported from `filtering` is code of this repository
  that is not part of the examined sources; it is modelled from the
  specification (see `wienerModel`).
* In-place tensor mutation through view aliasing (the `x += input_mean`,
  `x *= input_scale` lines acting on a slice of the caller tensor when the
  transform is `NoOp`) is made explicit: `OpenUnmix` forward functions return
  the post-call state of their argument next to the output.
-/

/-- Sum of `f 0, …, f (n-1)`, the model of a torch reduction over an axis. -/
def lsum (n : ℕ) (f : ℕ → ℚ) : ℚ := ((List.range n).map f).sum

/-- Squaring, written with `*` so that it evaluates by kernel reduction. -/
def sqr (q : ℚ) : ℚ := q * q

/-- `F.relu` / the final rectification: pointwise `max 0`, written with an
`if` so that it evaluates by kernel reduction. -/
def relu (q : ℚ) : ℚ := if 0 ≤ q then q else 0

/-- A waveform tensor of shape `(nb_samples, nb_channels, nb_timesteps)`. -/
structure Wave3 where
  B : ℕ
  C : ℕ
  T : ℕ
  val : ℕ → ℕ → ℕ → ℚ

/-- A complex STFT tensor of shape `(nb_samples, nb_channels, nb_bins,
nb_frames, 2)`; the last index is 0 for the real and 1 for the imaginary
part. -/
structure Stft5 where
  B : ℕ
  C : ℕ
  F : ℕ
  N : ℕ
  val : ℕ → ℕ → ℕ → ℕ → ℕ → ℚ

/-- A magnitude spectrogram of shape `(nb_frames, nb_samples, nb_channels,
nb_bins)`, the layout produced by `Spectrogram.forward`. -/
structure Mag4 where
  N : ℕ
  B : ℕ
  C : ℕ
  F : ℕ
  val : ℕ → ℕ → ℕ → ℕ → ℚ

/-- The stacked waveform tensor returned by `Separator.forward`:
shape `(nb_samples, nb_sources, nb_channels, nb_timesteps)`. -/
structure Wave4 where
  B : ℕ
  S : ℕ
  C : ℕ
  T : ℕ
  val : ℕ → ℕ → ℕ → ℕ → ℚ

/-- The configuration of the `STFT` module: fft size, hop and centering. -/
structure STFT where
  n_fft : ℕ
  n_hop : ℕ
  center : Bool

/-- Modelled from the spec: the value part of the external `torch.stft`
primitive, an opaque parameter producing the complex entries.  The shape of
its output is fixed by the documented contract of the one-sided centered
transform (`⌊n_fft/2⌋+1` bins and `⌊T/hop⌋+1` frames). -/
abbrev TorchStftVal := STFT → Wave3 → ℕ → ℕ → ℕ → ℕ → ℕ → ℚ

/-- `STFT.forward`: merge of batch and channel axes, call of `torch.stft`
and reshape back to `(B, C, n_fft//2+1, frames, 2)`. -/
def STFT.forward (tv : TorchStftVal) (s : STFT) (x : Wave3) : Stft5 :=
  ⟨x.B, x.C, s.n_fft / 2 + 1, x.T / s.n_hop + 1, tv s x⟩

/-- `Spectrogram.forward`: transpose of the bin and frame axes, squared
magnitude raised to `power/2` (the fractional power is the external
primitive `hp`), optional mono downmix by a channel mean, and the final
permute to `(frames, samples, channels, bins)`. -/
def Spectrogram.forward (hp : ℚ → ℚ) (mono : Bool) (s : Stft5) : Mag4 :=
  let mag : ℕ → ℕ → ℕ → ℕ → ℚ := fun b c n f =>
    hp (sqr (s.val b c f n 0) + sqr (s.val b c f n 1))
  if mono then
    ⟨s.N, s.B, 1, s.F, fun n b _ f => lsum s.C (fun c => mag b c n f) / (s.C : ℚ)⟩
  else
    ⟨s.N, s.B, s.C, s.F, fun n b c f => mag b c n f⟩

/-- The `OpenUnmix` estimator state.  `core` is the learned
encoder/recurrent/decoder stack of the source (fc1, bn1, tanh, the LSTM with
its skip connection, fc2, bn2, relu, fc3, bn3 — all external torch layers),
mapping the cropped normalized spectrogram to the pre-affine full-band
output; it is kept opaque because every claim below depends only on the
surrounding cropping, normalization, output affine, rectification and
masking, which are modelled exactly. -/
structure OpenUnmix where
  n_fft : ℕ
  n_hop : ℕ
  nb_channels : ℕ
  sample_rate : ℕ
  input_is_spectrogram : Bool
  nb_bins : ℕ
  nb_output_bins : ℕ
  input_mean : ℕ → ℚ
  input_scale : ℕ → ℚ
  output_scale : ℕ → ℚ
  output_mean : ℕ → ℚ
  core : (ℕ → ℕ → ℕ → ℕ → ℚ) → (ℕ → ℕ → ℕ → ℕ → ℚ)

/-- `OpenUnmix.__init__`: `nb_output_bins = n_fft // 2 + 1`; `nb_bins` is
`max_bin` when that is truthy and the full band otherwise; a supplied
`input_mean` is stored negated and a supplied `input_scale` is stored as its
reciprocal; `output_scale` and `output_mean` are initialized to ones. -/
def mkOpenUnmix (n_fft n_hop : ℕ) (inputSpectrogram : Bool)
    (nb_channels sample_rate : ℕ)
    (input_mean input_scale : Option (ℕ → ℚ)) (max_bin : Option ℕ)
    (core : (ℕ → ℕ → ℕ → ℕ → ℚ) → (ℕ → ℕ → ℕ → ℕ → ℚ)) : OpenUnmix :=
  { n_fft := n_fft
    n_hop := n_hop
    nb_channels := nb_channels
    sample_rate := sample_rate
    input_is_spectrogram := inputSpectrogram
    nb_bins := match max_bin with
      | some m => if m = 0 then n_fft / 2 + 1 else m
      | none => n_fft / 2 + 1
    nb_output_bins := n_fft / 2 + 1
    input_mean := match input_mean with
      | some f => fun k => -(f k)
      | none => fun _ => 0
    input_scale := match input_scale with
      | some f => fun k => (f k)⁻¹
      | none => fun _ => 1
    output_scale := fun _ => 1
    output_mean := fun _ => 1
    core := core }

/-- Lines 272–317 of `OpenUnmix.forward` after the transform: retain the
full-band magnitude `mix`, crop to `nb_bins`, shift by `input_mean` and
scale by `input_scale`, run the learned stack, apply the output affine,
rectify and multiply by `mix`.  The output has `nb_output_bins` bins. -/
def OpenUnmix.tail (m : OpenUnmix) (x : Mag4) : Mag4 :=
  let cropped : ℕ → ℕ → ℕ → ℕ → ℚ := fun n b c k =>
    if k < m.nb_bins then (x.val n b c k + m.input_mean k) * m.input_scale k else 0
  let y := m.core cropped
  ⟨x.N, x.B, x.C, m.nb_output_bins, fun n b c k =>
    relu (y n b c k * m.output_scale k + m.output_mean k) * x.val n b c k⟩

/-- The post-call state of a spectrogram argument when the transform is
`NoOp`: `x = x[..., :nb_bins]` is a view of the caller tensor, so
`x += input_mean; x *= input_scale` writes through to its first `nb_bins`
bins. -/
def OpenUnmix.mutate (m : OpenUnmix) (x : Mag4) : Mag4 :=
  { x with val := fun n b c k =>
      if k < m.nb_bins then (x.val n b c k + m.input_mean k) * m.input_scale k
      else x.val n b c k }

/-- The waveform branch of `OpenUnmix.forward` (transform =
`Sequential(stft, spec)`): the transform allocates a fresh tensor, so the
caller waveform is returned unchanged. -/
def OpenUnmix.forwardWave (tv : TorchStftVal) (hp : ℚ → ℚ) (m : OpenUnmix)
    (w : Wave3) : Mag4 × Wave3 :=
  (m.tail (Spectrogram.forward hp (m.nb_channels == 1)
    (STFT.forward tv ⟨m.n_fft, m.n_hop, true⟩ w)), w)

/-- The spectrogram branch of `OpenUnmix.forward` (transform = `NoOp`):
the output is computed from the cloned pre-normalization `mix`, while the
caller tensor is mutated in place on the cropped bins. -/
def OpenUnmix.forwardSpec (m : OpenUnmix) (s : Mag4) : Mag4 × Mag4 :=
  (m.tail s, m.mutate s)

/-- A dynamic input to `OpenUnmix.forward`: either a waveform or a
precomputed spectrogram. -/
inductive UmxInput where
  | wave (w : Wave3)
  | spec (s : Mag4)

/-- `OpenUnmix.forward`.  The branch is fixed at construction time by
`input_is_spectrogram`; feeding the other kind of tensor fails in torch when
the four-axis shape is unpacked (model: `none`).  The result pairs the
returned magnitude with the post-call state of the argument. -/
def OpenUnmix.forward (tv : TorchStftVal) (hp : ℚ → ℚ) (m : OpenUnmix) :
    UmxInput → Option (Mag4 × UmxInput)
  | .wave w =>
      if m.input_is_spectrogram then none
      else some ((m.forwardWave tv hp w).1, .wave (m.forwardWave tv hp w).2)
  | .spec s =>
      if m.input_is_spectrogram then
        some ((m.forwardSpec s).1, .spec (m.forwardSpec s).2)
      else none

/-- Per-frame source magnitudes inside a refinement window, indexed by
(bin, channel, source): one time slice of the permuted `spectrograms`. -/
abbrev SrcFrame := ℕ → ℕ → ℕ → ℚ

/-- One time slice of the permuted mixture STFT, indexed by
(bin, channel, re/im). -/
abbrev MixFrame := ℕ → ℕ → ℕ → ℚ

/-- One time slice of the refined output, indexed by
(bin, channel, re/im, source). -/
abbrev OutFrame := ℕ → ℕ → ℕ → ℕ → ℚ

/-- The all-zero output frame (`torch.zeros` initialization of
`targets_stft`). -/
def zeroOut : OutFrame := fun _ _ _ _ => 0

/-- Modelled from the spec: the per-source weight the masking stage derives
from the magnitude estimates — channel-averaged magnitude when soft masking
is requested, channel-averaged power (Gaussian model) otherwise. -/
def wienerWeight (C : ℕ) (softmask : Bool) (vt : SrcFrame) (f j : ℕ) : ℚ :=
  if softmask then lsum C (fun c => vt f c j) / (C : ℚ)
  else lsum C (fun c => sqr (vt f c j)) / (C : ℚ)

/-- Modelled from the spec: the pure masking stage of the refinement
primitive — each source receives its normalized weight share of the complex
mixture, framewise. -/
def wienerMask (C S : ℕ) (softmask : Bool) (vt : SrcFrame) (xt : MixFrame) :
    OutFrame :=
  fun f c p j =>
    (wienerWeight C softmask vt f j /
      lsum S (fun k => wienerWeight C softmask vt f k)) * xt f c p

/-- Modelled from the spec: one EM iteration of the refinement primitive.
The maximization step re-estimates each source variance from the
second-order statistics of the current estimates pooled over all frames of
the call (the per-call re-initialization of the spec); the expectation step
re-filters the mixture with the resulting Wiener gains. -/
def wienerEMStep (C S : ℕ) (x : List MixFrame) (est : List OutFrame) :
    List OutFrame :=
  let T := x.length
  let psd : ℕ → ℕ → ℚ := fun j f =>
    lsum T (fun t =>
      lsum C (fun c => lsum 2 (fun p => sqr ((est.getD t zeroOut) f c p j)))) /
      (T : ℚ)
  x.map fun xt => fun f c p j =>
    (psd j f / lsum S (fun k => psd k f)) * xt f c p

/-- Modelled from the spec: the residual slice the primitive appends when a
residual target is requested — the mixture minus the sum of the estimated
sources, as source index `S`. -/
def wienerResidual (S : ℕ) (x : List MixFrame) (est : List OutFrame) :
    List OutFrame :=
  List.zipWith (fun xt et => fun f c p j =>
    if j = S then xt f c p - lsum S (fun k => et f c p k) else et f c p j)
    x est

/-- Modelled from the spec: the `wiener` refinement primitive imported from
`filtering`, whose implementation is not among the examined sources.  Given
per-source magnitudes and the complex mixture for a window of frames it
masks the mixture, refines the estimates by `niter` EM iterations whose
statistics are pooled over the frames of the call, and appends a residual
slice when requested; `niter = 0` is pure masking. -/
def wienerModel (F C S : ℕ) (v : List SrcFrame) (x : List MixFrame)
    (niter : ℕ) (softmask : Bool) (residual : Option String) :
    List OutFrame :=
  let est0 := List.zipWith (wienerMask C S softmask) v x
  let est := (wienerEMStep C S x)^[niter] est0
  if residual.isSome then wienerResidual S x est else est

/-- The frame-window loop of `Separator.forward`: starting at `pos = 0`,
take `t = arange(pos, min(nb_frames, pos+batch_size))`, continue from
`t[-1] + 1`.  The fuel argument (instantiated with `N`) bounds the number of
iterations; with a positive batch size it is never exhausted. -/
def emWindowsAux (bs N : ℕ) : ℕ → ℕ → List (List ℕ)
  | 0, _ => []
  | fuel + 1, pos =>
    if pos < N then
      let t := List.range' pos (min (pos + bs) N - pos)
      t :: emWindowsAux bs N fuel (t.getLastD 0 + 1)
    else []

/-- The list of frame windows processed by the refinement loop. -/
def emWindows (bs N : ℕ) : List (List ℕ) := emWindowsAux bs N N 0

/-- The refinement loop body for one batch item: a zero-initialized frame
array into whose window slices the per-window `wiener` output is written. -/
def refineBatches (step : List ℕ → List OutFrame) (bs N : ℕ) : ℕ → OutFrame :=
  (emWindows bs N).foldl
    (fun acc t => fun n =>
      if n ∈ t then (step t).getD (n - t.headD 0) zeroOut else acc n)
    (fun _ => zeroOut)

/-- The interface of the external refinement primitive as `Separator.forward`
invokes it: bin, channel and source counts, per-source magnitudes and
mixture for a window of frames, the iteration count, the soft-mask flag and
the residual name. -/
abbrev WienerFn := ℕ → ℕ → ℕ → List SrcFrame → List MixFrame → ℕ → Bool →
  Option String → List OutFrame

/-- `wienerModel` packaged with the `WienerFn` interface. -/
def wienerFnModel : WienerFn := fun F C S v x niter softmask residual =>
  wienerModel F C S v x niter softmask residual

/-- Modelled from the spec: the value part of the external
`torchaudio.functional.istft` primitive, an opaque parameter taking the
permuted complex tensor, `n_fft`, `n_hop` and the requested output length;
the length argument fixes the output sample count. -/
abbrev TorchIstftVal := (ℕ → ℕ → ℕ → ℕ → ℕ → ℕ → ℚ) → ℕ → ℕ → ℕ →
  (ℕ → ℕ → ℕ → ℕ → ℚ)

/-- The `Separator` state: the registered target models in insertion order,
the EM iteration count, the optional residual name and the optional frame
batch size.  The `softmask` constructor argument is not stored — the
constructor discards it. -/
structure Separator where
  targets : List (String × OpenUnmix)
  niter : ℕ
  residual : Option String
  batch_size : Option ℕ
  nb_targets : ℕ
  sample_rate : ℕ

/-- `Separator.__init__`: registers the targets and caches the sample rate
of the first one; with an empty mapping `next(iter(self.targets.values()))`
raises `StopIteration` at construction time (model: `none`). -/
def mkSeparator (targets : List (String × OpenUnmix)) (niter : ℕ)
    (softmask : Bool) (residual : Option String) (batch_size : Option ℕ) :
    Option Separator :=
  match targets with
  | [] => none
  | p :: _ =>
      some ⟨targets, niter, residual, batch_size, targets.length,
        p.2.sample_rate⟩

/-- The error raised when a target model is fed the wrong input kind and the
four-axis shape unpack fails. -/
def valueErrMsg : String := "ValueError: not enough values to unpack"

/-- The error raised with no registered targets: `spectrograms` is still
`None` when it is permuted. -/
def attrErrMsg : String :=
  "AttributeError: NoneType object has no attribute permute"

/-- The configuration-error message of `Separator.forward`. -/
def configErrMsg : String :=
  "Cannot use EM if only one target is estimated.Provide two targets or create an additional one with `--residual`"

/-- The target loop of `Separator.forward`: run each registered model on the
mixture, collecting the per-target magnitude spectrograms. -/
def runTargets (tv : TorchStftVal) (hp : ℚ → ℚ) (audio : Wave3) :
    List (String × OpenUnmix) → Option (List Mag4)
  | [] => some []
  | p :: rest =>
      match OpenUnmix.forward tv hp p.2 (.wave audio) with
      | none => none
      | some (o, _) => (runTargets tv hp audio rest).map (o :: ·)

/-- The default `Mag4` used for out-of-range reads of the stacked
spectrogram tensor. -/
def zeroMag : Mag4 := ⟨0, 0, 0, 0, fun _ _ _ _ => 0⟩

/-- `targets = list(self.targets.keys())` plus the residual name when one
is configured: the effective target list checked by the guard. -/
def Separator.effTargets (s : Separator) : List String :=
  s.targets.map Prod.fst ++ s.residual.toList

/-- `batch_size = self.batch_size if self.batch_size else nb_frames`:
`None` and `0` are falsy in Python. -/
def Separator.effBatch (s : Separator) (N : ℕ) : ℕ :=
  match s.batch_size with
  | some b => if b = 0 then N else b
  | none => N

/-- `unmix_target` after the target loop: the last registered model, whose
`stft` parameters are borrowed for the mixture transform and the inverse. -/
def Separator.lastModel (s : Separator) : OpenUnmix :=
  (s.targets.getLastD ("", mkOpenUnmix 0 0 false 0 0 none none none id)).2

/-- The successful tail of `Separator.forward` (after the guard): stack and
permute the per-target magnitudes, take the mixture STFT, refine window by
window with the external primitive (hard masking), permute, and
inverse-transform the stacked result to the input length. -/
def Separator.okResult (tv : TorchStftVal) (wf : WienerFn)
    (iv : TorchIstftVal) (s : Separator) (audio : Wave3)
    (outs : List Mag4) : Wave4 :=
  let first : Mag4 := outs.headD zeroMag
  let spectro : ℕ → ℕ → ℕ → ℕ → ℕ → ℚ := fun b n f c j =>
    (outs.getD j zeroMag).val n b c f
  let mix := STFT.forward tv ⟨s.lastModel.n_fft, s.lastModel.n_hop, true⟩ audio
  let mixP : ℕ → ℕ → ℕ → ℕ → ℕ → ℚ := fun b n f c p => mix.val b c f n p
  let nb_sources2 := s.nb_targets + (if s.residual.isSome then 1 else 0)
  let N := first.N
  let refined : ℕ → ℕ → OutFrame := fun b =>
    refineBatches (fun t =>
      wf mix.F audio.C nb_sources2
        (t.map fun n => fun f c j => spectro b n f c j)
        (t.map fun n => fun f c p => mixP b n f c p)
        s.niter false s.residual) (s.effBatch N) N
  let tstft : ℕ → ℕ → ℕ → ℕ → ℕ → ℕ → ℚ := fun b j c f n p =>
    refined b n f c p j
  ⟨audio.B, nb_sources2, audio.C, audio.T,
    iv tstft s.lastModel.n_fft s.lastModel.n_hop audio.T⟩

/-- `Separator.forward`: run every target model, fail fast on the
single-target configuration error, and otherwise hand over to
`Separator.okResult`.  The returned value is the stacked `istft` output
tensor. -/
def Separator.forward (tv : TorchStftVal) (hp : ℚ → ℚ) (wf : WienerFn)
    (iv : TorchIstftVal) (s : Separator) (audio : Wave3) :
    Except String Wave4 :=
  match runTargets tv hp audio s.targets with
  | none => .error valueErrMsg
  | some outs =>
    match s.targets with
    | [] => .error attrErrMsg
    | _ :: _ =>
      if s.effTargets.length = 1 ∧ 0 < s.niter then .error configErrMsg
      else .ok (Separator.okResult tv wf iv s audio outs)

/-! ### Window arithmetic for the refinement loop -/

/-- The last element of a nonempty `range'` is its start plus its length
minus one. -/
lemma getLastD_range' (pos len : ℕ) (h : 1 ≤ len) :
    (List.range' pos len).getLastD 0 = pos + len - 1 := by
  rw [List.getLastD_eq_getLast?, List.getLast?_range']
  have : len ≠ 0 := by omega
  simp [this]

/-- The head of a nonempty `range'` is its start. -/
lemma headD_range' (pos len : ℕ) (h : 1 ≤ len) :
    (List.range' pos len).headD 0 = pos := by
  obtain ⟨k, rfl⟩ : ∃ k, len = k + 1 := ⟨len - 1, by omega⟩
  rw [List.range'_succ]
  rfl

/-- The first window reached from `pos`, when one exists, starts at `pos`. -/
lemma emWindowsAux_head (bs N : ℕ) (hbs : 1 ≤ bs) (fuel pos : ℕ)
    (w : List ℕ) (hw : (emWindowsAux bs N fuel pos).head? = some w) :
    w.headD 0 = pos := by
  cases fuel with
  | zero => simp [emWindowsAux] at hw
  | succ fuel =>
      by_cases hpos : pos < N
      · simp only [emWindowsAux, if_pos hpos, List.head?_cons,
          Option.some.injEq] at hw
        subst hw
        exact headD_range' _ _ (by omega)
      · simp [emWindowsAux, if_neg hpos] at hw

/-- The windows reached from position `pos` enumerate exactly the frames
`pos, …, N-1`, in order. -/
lemma emWindowsAux_flatten (bs N : ℕ) (hbs : 1 ≤ bs) :
    ∀ fuel pos, N - pos ≤ fuel →
      (emWindowsAux bs N fuel pos).flatten = List.range' pos (N - pos) := by
  intro fuel
  induction fuel with
  | zero =>
      intro pos hf
      have : N - pos = 0 := by omega
      simp [emWindowsAux, this]
  | succ fuel ih =>
      intro pos hf
      by_cases hpos : pos < N
      · have hlen : 1 ≤ min (pos + bs) N - pos := by omega
        have hlast : (List.range' pos (min (pos + bs) N - pos)).getLastD 0 + 1
            = min (pos + bs) N := by
          rw [getLastD_range' _ _ hlen]; omega
        simp only [emWindowsAux, if_pos hpos, List.flatten_cons]
        rw [hlast, ih (min (pos + bs) N) (by omega)]
        have key := List.range'_append_1 pos (min (pos + bs) N - pos)
          (N - min (pos + bs) N)
        have e1 : pos + (min (pos + bs) N - pos) = min (pos + bs) N := by omega
        have e2 : (N - min (pos + bs) N) + (min (pos + bs) N - pos)
            = N - pos := by omega
        rw [e1, e2] at key
        exact key
      · have : N - pos = 0 := by omega
        simp [emWindowsAux, if_neg hpos, this]

/-- Every window reached from `pos` is a nonempty contiguous run of at most
`bs` frames lying inside `[pos, N)`. -/
lemma emWindowsAux_windows (bs N : ℕ) (hbs : 1 ≤ bs) :
    ∀ fuel pos, ∀ w ∈ emWindowsAux bs N fuel pos,
      ∃ p l, w = List.range' p l ∧ 1 ≤ l ∧ l ≤ bs ∧ pos ≤ p ∧ p + l ≤ N := by
  intro fuel
  induction fuel with
  | zero => intro pos w hw; simp [emWindowsAux] at hw
  | succ fuel ih =>
      intro pos w hw
      by_cases hpos : pos < N
      · simp only [emWindowsAux, if_pos hpos, List.mem_cons] at hw
        rcases hw with rfl | hw
        · exact ⟨pos, min (pos + bs) N - pos, rfl, by omega, by omega,
            le_refl _, by omega⟩
        · obtain ⟨p, l, rfl, h1, h2, h3, h4⟩ := ih _ _ hw
          refine ⟨p, l, rfl, h1, h2, ?_, h4⟩
          have hlen : 1 ≤ min (pos + bs) N - pos := by omega
          rw [getLastD_range' _ _ hlen] at h3
          omega
      · simp [emWindowsAux, if_neg hpos] at hw

/-- Every window except possibly the last has length exactly `bs`. -/
lemma emWindowsAux_dropLast (bs N : ℕ) (hbs : 1 ≤ bs) :
    ∀ fuel pos, ∀ w ∈ (emWindowsAux bs N fuel pos).dropLast,
      w.length = bs := by
  intro fuel
  induction fuel with
  | zero => intro pos w hw; simp [emWindowsAux] at hw
  | succ fuel ih =>
      intro pos w hw
      by_cases hpos : pos < N
      · simp only [emWindowsAux, if_pos hpos] at hw
        rcases hr : emWindowsAux bs N fuel
            ((List.range' pos (min (pos + bs) N - pos)).getLastD 0 + 1)
            with _ | ⟨r, rs⟩
        · rw [hr] at hw
          simp at hw
        · rw [hr, List.dropLast_cons₂] at hw
          rcases List.mem_cons.mp hw with rfl | hw2
          · have hlen : 1 ≤ min (pos + bs) N - pos := by omega
            have hlt : (List.range' pos
                (min (pos + bs) N - pos)).getLastD 0 + 1 < N := by
              by_contra hge
              cases fuel with
              | zero => simp [emWindowsAux] at hr
              | succ fuel2 =>
                  simp only [emWindowsAux] at hr
                  rw [if_neg hge] at hr
                  simp at hr
            rw [getLastD_range' _ _ hlen] at hlt
            rw [List.length_range']
            omega
          · exact ih _ _ (by rw [hr]; exact hw2)
      · simp [emWindowsAux, if_neg hpos] at hw

/-- Consecutive windows are adjacent: the next window starts at the last
index of the current one plus one. -/
lemma emWindowsAux_chain (bs N : ℕ) (hbs : 1 ≤ bs) :
    ∀ fuel pos,
      List.Chain' (fun w1 w2 => w2.headD 0 = w1.getLastD 0 + 1)
        (emWindowsAux bs N fuel pos) := by
  intro fuel
  induction fuel with
  | zero => intro pos; simp [emWindowsAux]
  | succ fuel ih =>
      intro pos
      by_cases hpos : pos < N
      · simp only [emWindowsAux, if_pos hpos]
        refine List.chain'_cons'.mpr ⟨?_, ih _⟩
        intro w hw
        exact emWindowsAux_head bs N hbs fuel _ w (Option.mem_def.mp hw)
      · simp [emWindowsAux, if_neg hpos]

/-- Reading a mapped window at the offset of a member frame yields the
per-frame value. -/
lemma window_getD_map (g : ℕ → OutFrame) (pos len n : ℕ)
    (h1 : pos ≤ n) (h2 : n < pos + len) :
    ((List.range' pos len).map g).getD (n - pos) zeroOut = g n := by
  rw [List.getD_eq_getElem?_getD, List.getElem?_map,
    @List.getElem?_range' pos 1 (n - pos) len (by omega)]
  show g (pos + 1 * (n - pos)) = g n
  have e : pos + 1 * (n - pos) = n := by omega
  rw [e]

/-- When every window is refined framewise (`step t = t.map g`), the loop
writes `g n` at every frame `n` of `[pos, N)` and keeps the accumulator
elsewhere — independently of the batch size. -/
lemma refineFold_framewise (step : List ℕ → List OutFrame) (g : ℕ → OutFrame)
    (hstep : ∀ t, step t = t.map g) (bs N : ℕ) (hbs : 1 ≤ bs) :
    ∀ fuel pos acc, N - pos ≤ fuel → ∀ n,
      ((emWindowsAux bs N fuel pos).foldl
        (fun acc t => fun n =>
          if n ∈ t then (step t).getD (n - t.headD 0) zeroOut else acc n)
        acc) n = if pos ≤ n ∧ n < N then g n else acc n := by
  intro fuel
  induction fuel with
  | zero =>
      intro pos acc hf n
      have hc : ¬ (pos ≤ n ∧ n < N) := by omega
      simp [emWindowsAux, hc]
  | succ fuel ih =>
      intro pos acc hf n
      by_cases hpos : pos < N
      · have hlen : 1 ≤ min (pos + bs) N - pos := by omega
        have hlast : (List.range' pos (min (pos + bs) N - pos)).getLastD 0 + 1
            = pos + (min (pos + bs) N - pos) := by
          rw [getLastD_range' _ _ hlen]; omega
        simp only [emWindowsAux, if_pos hpos, List.foldl_cons]
        rw [hlast, ih (pos + (min (pos + bs) N - pos)) _ (by omega) n]
        by_cases h1 : pos + (min (pos + bs) N - pos) ≤ n ∧ n < N
        · rw [if_pos h1, if_pos (by omega)]
        · rw [if_neg h1]
          by_cases h2 : n ∈ List.range' pos (min (pos + bs) N - pos)
          · rw [List.mem_range'_1] at h2
            rw [if_pos (by rw [List.mem_range'_1]; omega),
              headD_range' _ _ hlen, hstep,
              window_getD_map g pos _ n h2.1 h2.2]
            rw [if_pos (by omega)]
          · rw [if_neg h2]
            rw [List.mem_range'_1] at h2
            rw [if_neg (by omega)]
      · have hc : ¬ (pos ≤ n ∧ n < N) := by omega
        simp [emWindowsAux, if_neg hpos, hc]

/-- `refineBatches` with a framewise step is independent of the batch size:
it computes `g n` below `N` and zero elsewhere. -/
lemma refineBatches_framewise (step : List ℕ → List OutFrame)
    (g : ℕ → OutFrame) (hstep : ∀ t, step t = t.map g) (bs N : ℕ)
    (hbs : 1 ≤ bs) (n : ℕ) :
    refineBatches step bs N n = if n < N then g n else zeroOut := by
  rw [refineBatches, emWindows,
    refineFold_framewise step g hstep bs N hbs N 0 _ (by omega) n]
  by_cases h : n < N
  · rw [if_pos ⟨Nat.zero_le n, h⟩, if_pos h]
  · rw [if_neg (by omega), if_neg h]

/-! ### The refinement primitive at zero iterations is framewise -/

/-- Zipping two maps of the same index list is a map over that list. -/
lemma zipWith_map_same {α β γ δ : Type} (f : β → γ → δ) (g : α → β)
    (h : α → γ) (l : List α) :
    List.zipWith f (l.map g) (l.map h) = l.map (fun a => f (g a) (h a)) := by
  induction l with
  | nil => rfl
  | cons a l ih => simp [ih]

/-- The per-frame function computed by the refinement primitive at zero
iterations: mask the frame, then append the residual slice when
requested. -/
def wienerFrame0 (C S : ℕ) (softmask : Bool) (residual : Option String)
    (vt : SrcFrame) (xt : MixFrame) : OutFrame :=
  let e := wienerMask C S softmask vt xt
  if residual.isSome then
    fun f c p j => if j = S then xt f c p - lsum S (fun k => e f c p k)
      else e f c p j
  else e

/-- With zero EM iterations the refinement primitive maps each frame of the
window independently. -/
lemma wienerModel_zero (F C S : ℕ) (softmask : Bool)
    (residual : Option String) (vd : ℕ → SrcFrame) (xd : ℕ → MixFrame)
    (t : List ℕ) :
    wienerModel F C S (t.map vd) (t.map xd) 0 softmask residual
      = t.map (fun n => wienerFrame0 C S softmask residual (vd n) (xd n)) := by
  rw [wienerModel]
  simp only [Function.iterate_zero, id_eq]
  rw [zipWith_map_same]
  by_cases hres : residual.isSome
  · simp only [hres, if_true, wienerResidual, zipWith_map_same]
    congr 1
    funext n
    simp [wienerFrame0, hres]
  · simp only [hres, if_false, Bool.false_eq_true]
    congr 1
    funext n
    simp [wienerFrame0, hres]

/-! ### Support lemmas for the separator theorems -/

/-- Dimension bookkeeping of the waveform branch of `OpenUnmix.forward`. -/
lemma forwardWave_dims (tv : TorchStftVal) (hp : ℚ → ℚ) (m : OpenUnmix)
    (w : Wave3) :
    ((m.forwardWave tv hp w).1).N = w.T / m.n_hop + 1 ∧
    ((m.forwardWave tv hp w).1).B = w.B ∧
    ((m.forwardWave tv hp w).1).C = (if m.nb_channels = 1 then 1 else w.C) ∧
    ((m.forwardWave tv hp w).1).F = m.nb_output_bins := by
  by_cases h : m.nb_channels = 1 <;>
    simp [OpenUnmix.forwardWave, OpenUnmix.tail, Spectrogram.forward,
      STFT.forward, h]

/-- Inversion of a successful target loop step. -/
lemma runTargets_cons (tv : TorchStftVal) (hp : ℚ → ℚ) (audio : Wave3)
    (p : String × OpenUnmix) (ts : List (String × OpenUnmix))
    (outs : List Mag4)
    (h : runTargets tv hp audio (p :: ts) = some outs) :
    p.2.input_is_spectrogram = false ∧
    ∃ rest, outs = (p.2.forwardWave tv hp audio).1 :: rest ∧
      runTargets tv hp audio ts = some rest := by
  rw [runTargets] at h
  by_cases hflag : p.2.input_is_spectrogram
  · rw [OpenUnmix.forward, if_pos hflag] at h
    exact absurd h (by simp)
  · rw [OpenUnmix.forward, if_neg hflag] at h
    obtain ⟨rest, hrest, houts⟩ := Option.map_eq_some'.mp h
    exact ⟨by simpa using hflag, rest, houts.symm, hrest⟩

/-- The effective batch size is positive whenever there is a frame. -/
lemma effBatch_pos (s : Separator) (N : ℕ) (hN : 1 ≤ N) :
    1 ≤ s.effBatch N := by
  rw [Separator.effBatch]
  cases s.batch_size with
  | none => exact hN
  | some b =>
      show 1 ≤ if b = 0 then N else b
      by_cases hb : b = 0
      · rw [if_pos hb]; exact hN
      · rw [if_neg hb]; omega

/-- The refinement loop at zero iterations writes the framewise mask at
every frame below `N` and zero elsewhere, for every positive batch size. -/
lemma refineBatches_model_zero (F C S : ℕ) (r : Option String)
    (vd : ℕ → SrcFrame) (xd : ℕ → MixFrame) (bs N : ℕ) (hbs : 1 ≤ bs)
    (n : ℕ) :
    refineBatches (fun t =>
        wienerFnModel F C S (t.map vd) (t.map xd) 0 false r) bs N n
      = if n < N then wienerFrame0 C S false r (vd n) (xd n) else zeroOut := by
  exact refineBatches_framewise _ (fun n => wienerFrame0 C S false r (vd n) (xd n))
    (fun t => wienerModel_zero F C S false r vd xd t) bs N hbs n

/-- With zero iterations the successful separation result does not depend
on the frame batch size. -/
lemma okResult_batch_invariant (tv : TorchStftVal) (iv : TorchIstftVal)
    (t : List (String × OpenUnmix)) (r : Option String) (b1 b2 : Option ℕ)
    (nt sr : ℕ) (audio : Wave3) (outs : List Mag4) :
    Separator.okResult tv wienerFnModel iv ⟨t, 0, r, b1, nt, sr⟩ audio outs
      = Separator.okResult tv wienerFnModel iv ⟨t, 0, r, b2, nt, sr⟩ audio outs := by
  rw [Separator.okResult, Separator.okResult]
  dsimp only [Separator.lastModel]
  refine congrArg (Wave4.mk _ _ _ _) ?_
  refine congrArg (fun tb => iv tb _ _ _) ?_
  funext b j c f n p
  cases hN : (outs.headD zeroMag).N with
  | zero => rfl
  | succ N0 =>
      have h1 : 1 ≤ (Separator.effBatch ⟨t, 0, r, b1, nt, sr⟩ (N0 + 1)) :=
        effBatch_pos _ _ (by omega)
      have h2 : 1 ≤ (Separator.effBatch ⟨t, 0, r, b2, nt, sr⟩ (N0 + 1)) :=
        effBatch_pos _ _ (by omega)
      rw [refineBatches_model_zero _ _ _ _ _ _ _ _ h1 n,
        refineBatches_model_zero _ _ _ _ _ _ _ _ h2 n]

/-- Two separators with the same targets, iteration count and residual have
equal forward results as soon as their successful tails agree. -/
lemma forward_eq_of_okResult (tv : TorchStftVal) (hp : ℚ → ℚ)
    (wf : WienerFn) (iv : TorchIstftVal)
    (t : List (String × OpenUnmix)) (ni : ℕ) (r : Option String)
    (b1 b2 : Option ℕ) (nt1 nt2 sr1 sr2 : ℕ) (audio : Wave3)
    (hok : ∀ outs,
      Separator.okResult tv wf iv ⟨t, ni, r, b1, nt1, sr1⟩ audio outs
        = Separator.okResult tv wf iv ⟨t, ni, r, b2, nt2, sr2⟩ audio outs) :
    Separator.forward tv hp wf iv ⟨t, ni, r, b1, nt1, sr1⟩ audio
      = Separator.forward tv hp wf iv ⟨t, ni, r, b2, nt2, sr2⟩ audio := by
  rw [Separator.forward, Separator.forward]
  dsimp only [Separator.effTargets]
  cases t with
  | nil => cases runTargets tv hp audio [] with
      | none => rfl
      | some outs => rfl
  | cons p ts =>
      cases runTargets tv hp audio (p :: ts) with
      | none => rfl
      | some outs =>
          dsimp only
          by_cases hg :
              (List.map Prod.fst (p :: ts) ++ r.toList).length = 1 ∧ 0 < ni
          · rw [if_pos hg, if_pos hg]
          · rw [if_neg hg, if_neg hg, hok outs]

/-- **C3** (amended): with zero EM iterations the refinement primitive is a
pure per-frame masking, so the frame-window batch size has no effect on the
separation result: processing all frames in one window and processing them
in windows of any configured size yield identical outputs.  (With a
positive iteration count the EM statistics are pooled over the frames of
each window, and the windowing does change the result — see the
counterexample.) -/
theorem separator_zero_iter_batch_independent (tv : TorchStftVal)
    (hp : ℚ → ℚ) (iv : TorchIstftVal)
    (targets : List (String × OpenUnmix)) (sm : Bool) (r : Option String)
    (b1 b2 : Option ℕ) (audio : Wave3) :
    (mkSeparator targets 0 sm r b1).map
      (fun s => Separator.forward tv hp wienerFnModel iv s audio)
      = (mkSeparator targets 0 sm r b2).map
        (fun s => Separator.forward tv hp wienerFnModel iv s audio) := by
  cases targets with
  | nil => rfl
  | cons p ts =>
      simp only [mkSeparator, Option.map_some']
      exact congrArg some (forward_eq_of_okResult tv hp wienerFnModel iv
        (p :: ts) 0 r b1 b2 _ _ _ _ audio
        (fun outs => okResult_batch_invariant tv iv (p :: ts) r b1 b2 _ _
          audio outs))

/-! ### Non-negativity of the estimator output -/

/-- Rectification yields non-negative values. -/
lemma relu_nonneg (q : ℚ) : 0 ≤ relu q := by
  rw [relu]
  by_cases h : 0 ≤ q
  · rw [if_pos h]; exact h
  · rw [if_neg h]

/-- A square is non-negative. -/
lemma sqr_nonneg (q : ℚ) : 0 ≤ sqr q := mul_self_nonneg q

/-- A sum of non-negative terms is non-negative. -/
lemma lsum_nonneg (n : ℕ) (f : ℕ → ℚ) (h : ∀ i, 0 ≤ f i) : 0 ≤ lsum n f := by
  rw [lsum]
  apply List.sum_nonneg
  intro x hx
  obtain ⟨i, _, rfl⟩ := List.mem_map.mp hx
  exact h i

/-- Every entry of a `Spectrogram.forward` output is non-negative, provided
the external fractional power primitive maps non-negatives to
non-negatives. -/
lemma spectrogram_forward_nonneg (hp : ℚ → ℚ)
    (hhp : ∀ q, 0 ≤ q → 0 ≤ hp q) (mono : Bool) (s : Stft5)
    (n b c f : ℕ) : 0 ≤ (Spectrogram.forward hp mono s).val n b c f := by
  have hmag : ∀ b c n f, 0 ≤ hp (sqr (s.val b c f n 0) + sqr (s.val b c f n 1)) :=
    fun b c n f => hhp _ (add_nonneg (sqr_nonneg _) (sqr_nonneg _))
  rw [Spectrogram.forward]
  cases mono with
  | true =>
      dsimp only
      exact div_nonneg (lsum_nonneg _ _ (fun c => hmag b c n f))
        (Nat.cast_nonneg _)
  | false => exact hmag b c n f

/-- Every entry of `OpenUnmix.tail` is non-negative when the retained `mix`
is: the pre-mask factor is rectified. -/
lemma tail_nonneg (m : OpenUnmix) (x : Mag4)
    (hx : ∀ n b c k, 0 ≤ x.val n b c k) (n b c k : ℕ) :
    0 ≤ (m.tail x).val n b c k := by
  rw [OpenUnmix.tail]
  exact mul_nonneg (relu_nonneg _) (hx n b c k)

/-! ### Concrete instances for witnesses and counterexamples -/

/-- A zero-valued external `torch.stft` for witnesses. -/
def tvZero : TorchStftVal := fun _ _ _ _ _ _ _ => 0

/-- A zero-valued external `istft` for witnesses. -/
def ivZero : TorchIstftVal := fun _ _ _ _ _ _ _ _ => 0

/-- An `istft` model that reads off the real part of bin 0 at the frame of
each requested sample position; used to observe the refined spectrogram
through `Separator.forward`. -/
def ivReadout : TorchIstftVal := fun g _ _ _ => fun b s c time => g b s c 0 time 0

/-- A stereo-capable estimator with zeroed learned stack. -/
def mW1 : OpenUnmix :=
  mkOpenUnmix 4 2 false 1 44100 none none none (fun _ => fun _ _ _ _ => 0)

/-- A spectrogram-input estimator (`input_is_spectrogram=True`) with zeroed
learned stack: its final gain is `relu(0*1+1) = 1`. -/
def mSpec : OpenUnmix :=
  mkOpenUnmix 0 1 true 1 44100 none none none (fun _ => fun _ _ _ _ => 0)

/-- A spectrogram-input estimator carrying a nonzero `input_mean`
normalization statistic (stored negated by the constructor). -/
def mMut : OpenUnmix :=
  mkOpenUnmix 0 1 true 1 44100 (some (fun _ => 1)) none none
    (fun _ => fun _ _ _ _ => 0)

/-- A one-entry spectrogram holding `-1`. -/
def negMag : Mag4 := ⟨1, 1, 1, 1, fun _ _ _ _ => -1⟩

/-- A one-entry spectrogram holding `0`. -/
def zeroMagOne : Mag4 := ⟨1, 1, 1, 1, fun _ _ _ _ => 0⟩

/-- A (1,1,4)-shaped zero waveform. -/
def audio1 : Wave3 := ⟨1, 1, 4, fun _ _ _ => 0⟩

/-- A (1,1,1)-shaped zero waveform: with hop 1 it yields two STFT frames. -/
def audioC3 : Wave3 := ⟨1, 1, 1, fun _ _ _ => 0⟩

/-- An external stft whose bin-0 real part is 1 at frame 0 and 2 at frame 1:
the two frames of the mixture carry different energy. -/
def tvC3 : TorchStftVal :=
  fun _ _ => fun _ _ _ n p => if p = 0 then (if n = 0 then 1 else 2) else 0

/-- An estimator whose mask is the constant gain 1. -/
def mC3a : OpenUnmix :=
  mkOpenUnmix 0 1 false 1 44100 none none none (fun _ => fun _ _ _ _ => 0)

/-- An estimator whose mask is gain 2 on frame 0 and gain 1 elsewhere:
the source balance differs between the two frames. -/
def mC3b : OpenUnmix :=
  mkOpenUnmix 0 1 false 1 44100 none none none
    (fun _ => fun n _ _ _ => if n = 0 then 1 else 0)

/-- The target loop succeeds on any list of waveform-input models. -/
lemma runTargets_all_wave (tv : TorchStftVal) (hp : ℚ → ℚ) (audio : Wave3) :
    ∀ (l : List (String × OpenUnmix)),
      (∀ p ∈ l, p.2.input_is_spectrogram = false) →
      ∃ outs, runTargets tv hp audio l = some outs := by
  intro l
  induction l with
  | nil => exact fun _ => ⟨[], rfl⟩
  | cons p ts ih =>
      intro h
      obtain ⟨rest, hrest⟩ := ih (fun q hq => h q (List.mem_cons_of_mem p hq))
      refine ⟨(p.2.forwardWave tv hp audio).1 :: rest, ?_⟩
      rw [runTargets, OpenUnmix.forward,
        if_neg (by simp [h p (List.mem_cons_self p ts)]), hrest]
      rfl

/-- The windowing loop stops as soon as the position reaches the frame
count. -/
lemma emWindowsAux_stop (bs N fuel pos : ℕ) (h : ¬ pos < N) :
    emWindowsAux bs N fuel pos = [] := by
  cases fuel with
  | zero => rfl
  | succ f => simp [emWindowsAux, if_neg h]

section
set_option allowUnsafeReducibility true
attribute [local semireducible] Rat.add Rat.mul Rat.sub Rat.neg Rat.inv

/-- **C1** (code evaluation): at a two-target separator on a zero waveform
of shape (1,1,4), `Separator.forward` returns `ok` of a single stacked
tensor of shape (nb_samples, nb_sources, nb_channels, nb_timesteps) =
(1, 2, 1, 4) — not a dictionary keyed by target name, contradicting its own
docstring (the `estimates = {}` of line 463 is dead, overwritten by the
`istft` tensor); the per-slice sample count does match the input. -/
theorem separator_forward_returns_stacked_tensor :
    (mkSeparator [("vocals", mW1), ("drums", mW1)] 0 false none none).map
      (fun s => (Separator.forward tvZero (fun q => q) wienerFnModel ivZero
        s audio1).toOption.map (fun o => (o.B, o.S, o.C, o.T)))
      = some (some (1, 2, 1, 4)) := by decide

/-- **C2**: for a separator whose registered targets are nonempty
waveform-input models, `Separator.forward` raises the configuration error
if and only if the registered targets plus the configured residual total
exactly one and the EM iteration count is positive; with iteration count 0
the same call proceeds. -/
theorem separator_config_error_iff (tv : TorchStftVal) (hp : ℚ → ℚ)
    (wf : WienerFn) (iv : TorchIstftVal) (s : Separator) (audio : Wave3)
    (hne : s.targets ≠ [])
    (hwave : ∀ p ∈ s.targets, p.2.input_is_spectrogram = false) :
    (Separator.forward tv hp wf iv s audio = .error configErrMsg)
      ↔ (s.targets.length + (if s.residual.isSome then 1 else 0) = 1
          ∧ 0 < s.niter) := by
  obtain ⟨outs, houts⟩ := runTargets_all_wave tv hp audio s.targets hwave
  have hlen : s.effTargets.length
      = s.targets.length + (if s.residual.isSome then 1 else 0) := by
    rw [Separator.effTargets, List.length_append, List.length_map]
    cases s.residual <;> rfl
  have hfwd : Separator.forward tv hp wf iv s audio
      = if s.effTargets.length = 1 ∧ 0 < s.niter then .error configErrMsg
        else .ok (Separator.okResult tv wf iv s audio outs) := by
    obtain ⟨p, ts, hts⟩ : ∃ p ts, s.targets = p :: ts := by
      cases h : s.targets with
      | nil => exact absurd h hne
      | cons a b => exact ⟨a, b, rfl⟩
    rw [Separator.forward, houts, hts]
  rw [hfwd, hlen]
  by_cases hc : s.targets.length + (if s.residual.isSome then 1 else 0) = 1
      ∧ 0 < s.niter
  · rw [if_pos hc]
    simp [hc]
  · rw [if_neg hc]
    simp [hc]

/-- The one-target separator used by the configuration-guard witness. -/
def sW : Separator := ⟨[("vocals", mW1)], 1, none, none, 1, 44100⟩

/-- Witness for the configuration guard: one registered target, no
residual, one EM iteration — the guard fires. -/
theorem separator_config_error_iff_witness :
    (Separator.forward tvZero (fun q => q) wienerFnModel ivZero sW audio1
      = .error configErrMsg)
      ↔ (sW.targets.length + (if sW.residual.isSome then 1 else 0) = 1
          ∧ 0 < sW.niter) :=
  separator_config_error_iff tvZero (fun q => q) wienerFnModel ivZero sW
    audio1 (by simp [sW])
    (fun p hp => by
      simp only [sW] at hp
      rw [List.mem_singleton] at hp
      subst hp
      rfl)

/-- **C3** (counterexample): with one EM iteration, separating the same
two-target mixture with `batch_size = None` (one window of two frames)
versus `batch_size = 1` (two windows of one frame) yields different
outputs: the EM statistics are pooled per window, so windowed refinement is
not a pure memory optimization. -/
theorem separator_windowing_changes_em_output :
    (mkSeparator [("a", mC3a), ("b", mC3b)] 1 false none none).map
      (fun s => (Separator.forward tvC3 (fun q => q) wienerFnModel ivReadout
        s audioC3).toOption.map (fun o => o.val 0 0 0 0))
    ≠ (mkSeparator [("a", mC3a), ("b", mC3b)] 1 false none (some 1)).map
      (fun s => (Separator.forward tvC3 (fun q => q) wienerFnModel ivReadout
        s audioC3).toOption.map (fun o => o.val 0 0 0 0)) := by decide

/-- **C4** (amended): the estimator output is element-wise non-negative for
every waveform input (given that the external fractional-power primitive
preserves non-negativity), and for every spectrogram input whose entries
are non-negative; the final step multiplies a rectified gain by the
retained mixture magnitude. -/
theorem openunmix_output_nonneg :
    (∀ (tv : TorchStftVal) (hp : ℚ → ℚ), (∀ q, 0 ≤ q → 0 ≤ hp q) →
      ∀ (m : OpenUnmix) (w : Wave3) (n b c k : ℕ),
        0 ≤ (m.forwardWave tv hp w).1.val n b c k) ∧
    (∀ (m : OpenUnmix) (s : Mag4), (∀ n b c k, 0 ≤ s.val n b c k) →
      ∀ n b c k, 0 ≤ (m.forwardSpec s).1.val n b c k) := by
  constructor
  · intro tv hp hhp m w n b c k
    exact tail_nonneg m _
      (fun n b c k => spectrogram_forward_nonneg hp hhp _ _ n b c k) n b c k
  · intro m s hs n b c k
    exact tail_nonneg m s hs n b c k

/-- Witness for the non-negativity theorem at concrete instances of both
branches. -/
theorem openunmix_output_nonneg_witness :
    0 ≤ (mW1.forwardWave tvZero (fun q => q) audio1).1.val 0 0 0 0 ∧
    0 ≤ (mSpec.forwardSpec zeroMagOne).1.val 0 0 0 0 :=
  ⟨openunmix_output_nonneg.1 tvZero (fun q => q) (fun _ h => h) mW1 audio1
      0 0 0 0,
    openunmix_output_nonneg.2 mSpec zeroMagOne (fun _ _ _ _ => le_refl 0)
      0 0 0 0⟩

/-- **C4** (counterexample): an estimator built with
`input_is_spectrogram=True` passes an arbitrary input straight through as
the retained `mix`; on an input holding `-1` the output entry is `-1 < 0`,
so the output is not non-negative for arbitrary input. -/
theorem openunmix_spectrogram_negative_output :
    (OpenUnmix.forward tvZero (fun q => q) mSpec (.spec negMag)).map
      (fun pr => pr.1.val 0 0 0 0) = some (-1)
    ∧ ((-1 : ℚ) < 0) := by decide

/-- **C5** (amended): the waveform branch of `OpenUnmix.forward` leaves the
caller tensor unchanged; the spectrogram branch (`NoOp` transform) updates
the first `nb_bins` bins of the caller tensor in place to
`(x + input_mean) * input_scale` — which is the identity exactly when the
stored statistics are the constructor defaults (mean 0 and scale 1). -/
theorem openunmix_mutation_characterization :
    (∀ (tv : TorchStftVal) (hp : ℚ → ℚ) (m : OpenUnmix) (w : Wave3),
      (m.forwardWave tv hp w).2 = w) ∧
    (∀ (m : OpenUnmix) (s : Mag4) (n b c k : ℕ),
      (m.forwardSpec s).2.val n b c k
        = if k < m.nb_bins
          then (s.val n b c k + m.input_mean k) * m.input_scale k
          else s.val n b c k) ∧
    (∀ (nf nh : ℕ) (isc : Bool) (nc sr : ℕ) (mb : Option ℕ)
        (core : (ℕ → ℕ → ℕ → ℕ → ℚ) → (ℕ → ℕ → ℕ → ℕ → ℚ))
        (s : Mag4) (n b c k : ℕ),
      ((mkOpenUnmix nf nh isc nc sr none none mb core).forwardSpec s).2.val
          n b c k = s.val n b c k) := by
  refine ⟨fun _ _ _ _ => rfl, fun _ _ _ _ _ _ => rfl, ?_⟩
  intro nf nh isc nc sr mb core s n b c k
  show (if k < (mkOpenUnmix nf nh isc nc sr none none mb core).nb_bins
      then (s.val n b c k + 0) * 1 else s.val n b c k) = s.val n b c k
  by_cases h : k < (mkOpenUnmix nf nh isc nc sr none none mb core).nb_bins
  · rw [if_pos h, add_zero, mul_one]
  · rw [if_neg h]

/-- **C5** (counterexample): an estimator built with
`input_is_spectrogram=True` and a nonzero `input_mean` statistic mutates
the caller tensor: the entry that held `0` before the call holds `-1`
afterwards, so `OpenUnmix.forward` is not free of caller-visible side
effects. -/
theorem openunmix_inplace_normalization_mutates_caller :
    (OpenUnmix.forward tvZero (fun q => q) mMut (.spec zeroMagOne)).map
      (fun pr => match pr.2 with
        | .spec s2 => s2.val 0 0 0 0
        | .wave _ => 37) = some (-1)
    ∧ zeroMagOne.val 0 0 0 0 = 0 := by decide

/-- **C6**: the `softmask` constructor argument is discarded by
`Separator.__init__`, and every invocation of the refinement primitive made
by `Separator.forward` passes the hard-masking setting (`use_softmask` is
the literal `False`): two separators differing only in the `softmask`
argument are the same separator, and forcing the soft-mask parameter of the
refinement primitive to `false` does not change the result. -/
theorem separator_softmask_ignored :
    (∀ (targets : List (String × OpenUnmix)) (ni : ℕ) (sm1 sm2 : Bool)
        (r : Option String) (b : Option ℕ),
      mkSeparator targets ni sm1 r b = mkSeparator targets ni sm2 r b) ∧
    (∀ (tv : TorchStftVal) (hp : ℚ → ℚ) (wf : WienerFn)
        (iv : TorchIstftVal) (s : Separator) (audio : Wave3),
      Separator.forward tv hp wf iv s audio
        = Separator.forward tv hp
            (fun F C S v x ni _sm res => wf F C S v x ni false res)
            iv s audio) := by
  constructor
  · intro targets ni sm1 sm2 r b
    cases targets <;> rfl
  · intro tv hp wf iv s audio
    rfl

/-- **C7**: the frame windows of the refinement loop form a contiguous,
non-overlapping, in-order partition of `0..nb_frames-1`: their
concatenation is exactly `range nb_frames`, every window is a nonempty
contiguous run of at most `batch_size` frames, every window except possibly
the last is full, each next window starts at the last index of the current
one plus one, and with the batch size unset (effective batch =
`nb_frames`) all frames form one window. -/
theorem separator_refinement_windows_partition (bs N : ℕ) (hbs : 1 ≤ bs) :
    (emWindows bs N).flatten = List.range N ∧
    (∀ w ∈ emWindows bs N,
      w.length ≤ bs ∧ w ≠ [] ∧ ∃ p l, w = List.range' p l) ∧
    (∀ w ∈ (emWindows bs N).dropLast, w.length = bs) ∧
    List.Chain' (fun w1 w2 => w2.headD 0 = w1.getLastD 0 + 1)
      (emWindows bs N) ∧
    (1 ≤ N → emWindows N N = [List.range N]) := by
  refine ⟨?_, ?_, ?_, ?_, ?_⟩
  · rw [emWindows, emWindowsAux_flatten bs N hbs N 0 (by omega),
      List.range_eq_range']
    exact congrArg (List.range' 0) (by omega)
  · intro w hw
    obtain ⟨p, l, rfl, h1, h2, _, _⟩ :=
      emWindowsAux_windows bs N hbs N 0 w hw
    exact ⟨by rw [List.length_range']; exact h2,
      (List.range'_ne_nil p).mpr (by omega), p, l, rfl⟩
  · intro w hw
    exact emWindowsAux_dropLast bs N hbs N 0 w hw
  · exact emWindowsAux_chain bs N hbs N 0
  · intro hN
    obtain ⟨k, rfl⟩ : ∃ k, N = k + 1 := ⟨N - 1, by omega⟩
    rw [emWindows]
    simp only [emWindowsAux, if_pos (by omega : 0 < k + 1)]
    have hm : min (0 + (k + 1)) (k + 1) - 0 = k + 1 := by omega
    rw [hm]
    have hl : (List.range' 0 (k + 1)).getLastD 0 + 1 = k + 1 := by
      rw [getLastD_range' 0 (k + 1) (by omega)]
      omega
    rw [hl, emWindowsAux_stop (k + 1) (k + 1) k (k + 1) (by omega),
      List.range_eq_range']

/-- Witness for the windowing partition at `batch_size = 3` and 7 frames. -/
theorem separator_refinement_windows_partition_witness :
    (emWindows 3 7).flatten = List.range 7 ∧
    (∀ w ∈ emWindows 3 7,
      w.length ≤ 3 ∧ w ≠ [] ∧ ∃ p l, w = List.range' p l) ∧
    (∀ w ∈ (emWindows 3 7).dropLast, w.length = 3) ∧
    List.Chain' (fun w1 w2 => w2.headD 0 = w1.getLastD 0 + 1)
      (emWindows 3 7) ∧
    (1 ≤ 7 → emWindows 7 7 = [List.range 7]) :=
  separator_refinement_windows_partition 3 7 (by decide)

/-- **C9**: for waveform input of shape (B, C, T) with `C` matching the
constructed channel count and `T` at least the window size, the estimator
output has shape (frames, B, C, full_bins) with
`full_bins = n_fft // 2 + 1` and `frames = T / n_hop + 1` — a function of
`T`, the window size, the hop and the centering policy only, independent of
the tensor values and of the batch and channel counts; this holds for every
`max_bin` cropping because the final mask is reapplied against the
uncropped full-band mixture magnitude. -/
theorem openunmix_output_shape (tv : TorchStftVal) (hp : ℚ → ℚ)
    (n_fft n_hop nb_channels sr : ℕ) (im isc : Option (ℕ → ℚ))
    (max_bin : Option ℕ)
    (core : (ℕ → ℕ → ℕ → ℕ → ℚ) → (ℕ → ℕ → ℕ → ℕ → ℚ)) (w : Wave3)
    (hT : n_fft ≤ w.T) (hC : w.C = nb_channels) :
    ((mkOpenUnmix n_fft n_hop false nb_channels sr im isc max_bin
      core).forwardWave tv hp w).1.N = w.T / n_hop + 1 ∧
    ((mkOpenUnmix n_fft n_hop false nb_channels sr im isc max_bin
      core).forwardWave tv hp w).1.B = w.B ∧
    ((mkOpenUnmix n_fft n_hop false nb_channels sr im isc max_bin
      core).forwardWave tv hp w).1.C = w.C ∧
    ((mkOpenUnmix n_fft n_hop false nb_channels sr im isc max_bin
      core).forwardWave tv hp w).1.F = n_fft / 2 + 1 := by
  obtain ⟨h1, h2, h3, h4⟩ := forwardWave_dims tv hp
    (mkOpenUnmix n_fft n_hop false nb_channels sr im isc max_bin core) w
  refine ⟨h1, h2, ?_, h4⟩
  rw [h3]
  show (if nb_channels = 1 then 1 else w.C) = w.C
  by_cases hm : nb_channels = 1
  · rw [if_pos hm]
    omega
  · rw [if_neg hm]

/-- Witness for the shape theorem: a stereo model with `n_fft = 4`,
`n_hop = 2` and `max_bin = 1` on a (3, 2, 8) waveform yields shape
(5, 3, 2, 3). -/
theorem openunmix_output_shape_witness :
    ((mkOpenUnmix 4 2 false 2 44100 none none (some 1)
      (fun _ => fun _ _ _ _ => 0)).forwardWave tvZero (fun q => q)
      ⟨3, 2, 8, fun _ _ _ => 0⟩).1.N = 5 ∧
    ((mkOpenUnmix 4 2 false 2 44100 none none (some 1)
      (fun _ => fun _ _ _ _ => 0)).forwardWave tvZero (fun q => q)
      ⟨3, 2, 8, fun _ _ _ => 0⟩).1.B = 3 ∧
    ((mkOpenUnmix 4 2 false 2 44100 none none (some 1)
      (fun _ => fun _ _ _ _ => 0)).forwardWave tvZero (fun q => q)
      ⟨3, 2, 8, fun _ _ _ => 0⟩).1.C = 2 ∧
    ((mkOpenUnmix 4 2 false 2 44100 none none (some 1)
      (fun _ => fun _ _ _ _ => 0)).forwardWave tvZero (fun q => q)
      ⟨3, 2, 8, fun _ _ _ => 0⟩).1.F = 3 :=
  openunmix_output_shape tvZero (fun q => q) 4 2 2 44100 none none (some 1)
    (fun _ => fun _ _ _ _ => 0) ⟨3, 2, 8, fun _ _ _ => 0⟩ (by decide)
    (by decide)

/-- **C10**: constructing a `Separator` fails exactly on an empty targets
mapping: the constructor unconditionally reads the sample rate from the
first registered target (`next(iter(self.targets.values()))`, raising
`StopIteration` on an empty mapping), so the initialized state requires at
least one target. -/
theorem separator_empty_targets_init_raises
    (targets : List (String × OpenUnmix)) (ni : ℕ) (sm : Bool)
    (r : Option String) (b : Option ℕ) :
    mkSeparator targets ni sm r b = none ↔ targets = [] := by
  cases targets with
  | nil => simp [mkSeparator]
  | cons p ts => simp [mkSeparator]

end
